import Mathlib

/-!
Shallow embedding of the workflow-orchestration core
(`src/api/agents/orchestrator.py`, class `WorkflowOrchestrator`).

Python values flowing through the orchestrator (task inputs, agent results,
execution contexts) are modelled by the JSON-like type `Value`; mappings are
association lists in insertion order, matching CPython dict semantics.
-/

namespace Orchestrator

/-- The universe of Python values handled by the orchestrator: `None`,
strings, integers, booleans, dicts with string keys, and lists. -/
inductive Value where
  | null : Value
  | str (s : String) : Value
  | int (n : Int) : Value
  | bool (b : Bool) : Value
  | dict (kvs : List (String × Value)) : Value
  | list (xs : List Value) : Value

mutual

/-- Python `==` on `Value` (used by `result.get("status") == "failed"`). -/
def beqValue : Value → Value → Bool
  | .null, .null => true
  | .str a, .str b => a == b
  | .int a, .int b => a == b
  | .bool a, .bool b => a == b
  | .dict a, .dict b => beqPairs a b
  | .list a, .list b => beqList a b
  | _, _ => false

def beqPairs : List (String × Value) → List (String × Value) → Bool
  | [], [] => true
  | (k, v) :: rest, (k', v') :: rest' => k == k' && beqValue v v' && beqPairs rest rest'
  | _, _ => false

def beqList : List Value → List Value → Bool
  | [], [] => true
  | v :: rest, v' :: rest' => beqValue v v' && beqList rest rest'
  | _, _ => false

end

instance : BEq Value := ⟨beqValue⟩

/-- Python `d.get(k)` on a string-keyed dict: the stored value, or `None`
when the key is absent (first binding wins; inserts never duplicate keys). -/
def pyGetD (kvs : List (String × Value)) (k : String) : Value :=
  match kvs.find? (fun kv => kv.1 == k) with
  | some kv => kv.2
  | none => .null

/-- Generic lookup returning an `Option`, for dicts whose values are not
`Value`s (workflow registry, results map). Python `d.get(k)` with `None`
read as absence. -/
def dictFind? {α : Type} (kvs : List (String × α)) (k : String) : Option α :=
  (kvs.find? (fun kv => kv.1 == k)).map (fun kv => kv.2)

/-- Python `d[k] = v`: replace the value at an existing key in place,
else append the new binding (CPython insertion-order semantics). -/
def dictInsert {α : Type} : List (String × α) → String → α → List (String × α)
  | [], k, v => [(k, v)]
  | (k', v') :: rest, k, v =>
      if k' == k then (k, v) :: rest else (k', v') :: dictInsert rest k v

mutual

/-- Python `repr` on the modelled value universe (string quoting is faithful
for strings free of quotes, backslashes and control characters). -/
def pyRepr : Value → String
  | .null => "None"
  | .str s => "'" ++ s ++ "'"
  | .int n => toString n
  | .bool b => if b then "True" else "False"
  | .dict kvs => "\x7b" ++ String.intercalate ", " (pyReprPairs kvs) ++ "\x7d"
  | .list xs => "[" ++ String.intercalate ", " (pyReprList xs) ++ "]"

def pyReprPairs : List (String × Value) → List String
  | [] => []
  | (k, v) :: rest => ("'" ++ k ++ "': " ++ pyRepr v) :: pyReprPairs rest

def pyReprList : List Value → List String
  | [] => []
  | v :: rest => pyRepr v :: pyReprList rest

end

/-- Python `str(value)`: the string itself for strings, else `repr`. -/
def pyStr : Value → String
  | .str s => s
  | v => pyRepr v

/-- `_get_nested_value`'s loop: walk the key list; at each step the current
value must be a dict and `value.get(key)` must be neither absent nor `None`,
otherwise the whole navigation yields `None` (here: `none`). -/
def getNested : List String → Value → Option Value
  | [], v => some v
  | k :: ks, v =>
      match v with
      | .dict kvs =>
          match pyGetD kvs k with
          | .null => none
          | v' => getNested ks v'
      | _ => none

/-- Python `path.split('.')` at the character level: `splitDot acc l` scans
`l`, accumulating the current segment's characters in reverse in `acc`. -/
def splitDot (acc : List Char) : List Char → List String
  | [] => [acc.reverse.asString]
  | c :: rest =>
      if c = '.' then acc.reverse.asString :: splitDot [] rest
      else splitDot (c :: acc) rest

/-- `WorkflowOrchestrator._get_nested_value(data, path)`:
split `path` on `.` and navigate `data` successively. -/
def getNestedValue (data : List (String × Value)) (path : String) : Option Value :=
  getNested (splitDot [] path.data) (.dict data)

/-- One scan step of `re.findall(r'\$\x7b([^\x7d]+)\x7d', s)`: given the text
after a `$\x7b` opener, the captured body (maximal nonempty run of
non-`\x7d` characters) and the text after the closing brace, if any. -/
def refClose (l : List Char) : Option (List Char × List Char) :=
  match l.dropWhile (fun c => c ≠ '}') with
  | _ :: tail =>
      if (l.takeWhile (fun c => c ≠ '}')).isEmpty then none
      else some (l.takeWhile (fun c => c ≠ '}'), tail)
  | [] => none

theorem refClose_tail_lt {l body tail} (h : refClose l = some (body, tail)) :
    tail.length < l.length := by
  unfold refClose at h
  split at h
  · rename_i c tl hdw
    split at h
    · exact Option.noConfusion h
    · simp only [Option.some.injEq, Prod.mk.injEq] at h
      obtain ⟨h1, h2⟩ := h
      subst h2
      have hsub : (l.dropWhile (fun c => c ≠ '}')).length ≤ l.length :=
        (List.dropWhile_sublist _).length_le
      rw [hdw] at hsub
      simp only [List.length_cons] at hsub
      omega
  · exact Option.noConfusion h

/-- `re.findall(r'\$\x7b([^\x7d]+)\x7d', s)`: all captured bodies, scanned
left to right, non-overlapping; a failed match at a `$` retries from the
next character. -/
def findRefs : List Char → List String
  | [] => []
  | '$' :: '{' :: rest2 =>
      match h : refClose rest2 with
      | some (body, tail) => body.asString :: findRefs tail
      | none => findRefs ('{' :: rest2)
  | _ :: rest => findRefs rest
termination_by l => l.length
decreasing_by
  all_goals simp only [List.length_cons]
  · have := refClose_tail_lt h
    omega
  · omega
  · omega

/-- Python `s.replace(old, new)`: replace every non-overlapping occurrence
of `old`, scanning left to right. (Call sites always pass a nonempty `old`,
namely a full `$\x7b...\x7d` reference text.) -/
def strReplace : List Char → List Char → List Char → List Char
  | [], _, _ => []
  | c :: rest, old, new =>
      if !old.isEmpty && old.isPrefixOf (c :: rest) then
        new ++ strReplace ((c :: rest).drop old.length) old new
      else
        c :: strReplace rest old new
termination_by s _ _ => s.length
decreasing_by
  · rename_i h
    simp only [Bool.and_eq_true, Bool.not_eq_true'] at h
    have hlen : 1 ≤ old.length := by
      cases old with
      | nil => simp at h
      | cons _ _ => simp
    simp only [List.length_drop, List.length_cons]
    omega
  · simp

/-- The literal reference text `$\x7bpath\x7d` as a string. -/
def refText (path : String) : String := "$\x7b" ++ path ++ "\x7d"

/-- The string branch of `_resolve_variables`, at the character-list level:
`matches = re.findall(pattern, s)`, then for each match with a non-`None`
nested lookup, replace every occurrence of its literal reference text by the
looked-up value's string form. -/
def resolveChars (ctx : List (String × Value)) (l : List Char) : List Char :=
  (findRefs l).foldl
    (fun acc m =>
      match getNestedValue ctx m with
      | some v => strReplace acc (refText m).data (pyStr v).data
      | none => acc)
    l

/-- `_resolve_variables` on a string template. -/
def resolveString (s : String) (ctx : List (String × Value)) : String :=
  (resolveChars ctx s.data).asString

mutual

/-- `WorkflowOrchestrator._resolve_variables(input_template, context)`:
strings get reference substitution, dicts and lists are rebuilt with every
value resolved recursively, anything else is returned unchanged. -/
def resolveVariables : Value → List (String × Value) → Value
  | .str s, ctx => .str (resolveString s ctx)
  | .dict kvs, ctx => .dict (resolvePairs kvs ctx)
  | .list xs, ctx => .list (resolveList xs ctx)
  | v, _ => v

def resolvePairs : List (String × Value) → List (String × Value) → List (String × Value)
  | [], _ => []
  | (k, v) :: rest, ctx => (k, resolveVariables v ctx) :: resolvePairs rest ctx

def resolveList : List Value → List (String × Value) → List Value
  | [], _ => []
  | v :: rest, ctx => resolveVariables v ctx :: resolveList rest ctx

end

/-! ### Workflow data model and execution -/

/-- An agent's capability call, `await agent.execute(task_input)`. Per the
capability interface the returned result is a mapping; an exception raised
inside the call is an `Except.error` carrying `str(e)`. -/
structure Agent where
  execute : Value → Except String (List (String × Value))

/-- One entry of `workflow["tasks"]`: `task["task_id"]`, `task["agent"]`,
`task["input"]`, and `task.get("continue_on_failure", False)`. -/
structure Task where
  task_id : String
  agent : String
  input : Value
  continue_on_failure : Bool

/-- A registered workflow definition: `workflow["tasks"]` plus
`workflow.get("output_var")`. -/
structure Workflow where
  tasks : List Task
  output_var : Option String

/-- One value of the per-task results map:
`\x7b"agent": ..., "result": ..., "duration": ..., "timestamp": ...\x7d`.
Durations are modelled as exact rationals. -/
structure TaskRecord where
  agent : String
  result : List (String × Value)
  duration : ℚ
  timestamp : String

/-- One entry appended to `self.execution_history`. -/
structure LedgerEntry where
  workflow : String
  timestamp : String
  duration : ℚ
  status : String
deriving DecidableEq

/-- The mutable orchestrator state touched by `execute_workflow`:
`self.workflows` and `self.execution_history`. (The agent registry is passed
separately as a lookup function.) -/
structure OrchState where
  workflows : List (String × Workflow)
  history : List LedgerEntry

/-- `final_output = context.get(output_var) if output_var else results`:
the two sides of that expression have different shapes, kept apart here.
`fromContext` carries `context.get(output_var)` (`Value.null` when the key
is absent); `resultsMap` carries the full per-task results map. -/
inductive FinalOutput where
  | fromContext (v : Value)
  | resultsMap (r : List (String × TaskRecord))

/-- The dict returned by `execute_workflow`: on the normal path
`\x7bworkflow, status: "completed", results, output, execution_time,
completed_at\x7d`; on the exception path
`\x7bworkflow, status: "failed", error, execution_time\x7d`. -/
inductive WorkflowResult where
  | completed (workflow : String) (results : List (String × TaskRecord))
      (output : FinalOutput) (execution_time : ℚ) (completed_at : String)
  | failed (workflow : String) (error : String) (execution_time : ℚ)

/-- The `status` field of a `WorkflowResult`. -/
def WorkflowResult.statusStr : WorkflowResult → String
  | .completed _ _ _ _ _ => "completed"
  | .failed _ _ _ => "failed"

/-- The `output` field of a `WorkflowResult` (absent on the failed path). -/
def WorkflowResult.outputOf : WorkflowResult → Option FinalOutput
  | .completed _ _ out _ _ => some out
  | .failed _ _ _ => none

/-- The `results` field of a `WorkflowResult` (absent on the failed path). -/
def WorkflowResult.resultsOf : WorkflowResult → Option (List (String × TaskRecord))
  | .completed _ res _ _ _ => some res
  | .failed _ _ _ => none

/-- The task loop of `execute_workflow`. For each task in order: look up the
agent (raising `ValueError` when absent), resolve the input template against
the current context, run the agent, store the task record in `results` and
the raw result in `context`, and stop iterating when the result's status is
`"failed"` and `continue_on_failure` is not set. An `Except.error` is an
exception escaping the loop; `Except.ok` carries the final results map and
context, whether the loop ran to completion or broke early. `taskDur` and
`nowIso` stand in for the wall-clock readings. -/
def runTasks (agents : String → Option Agent) (taskDur : ℚ) (nowIso : String) :
    List Task → List (String × Value) → List (String × TaskRecord) →
    Except String (List (String × TaskRecord) × List (String × Value))
  | [], ctx, results => .ok (results, ctx)
  | task :: rest, ctx, results =>
      match agents task.agent with
      | none => .error ("Agent '" ++ task.agent ++ "' not found")
      | some ag =>
          match ag.execute (resolveVariables task.input ctx) with
          | .error e => .error e
          | .ok result =>
              let newResults := dictInsert results task.task_id
                ⟨task.agent, result, taskDur, nowIso⟩
              let newCtx := dictInsert ctx task.task_id (.dict result)
              if pyGetD result "status" == Value.str "failed"
                  && !task.continue_on_failure then
                .ok (newResults, newCtx)
              else
                runTasks agents taskDur nowIso rest newCtx newResults

/-- The context `execute_workflow` seeds before its task loop:
`\x7b"input": input_data, "workflow_name": ..., "start_time": ...\x7d`. -/
def initialContext (inputData : Value) (workflowName startTime : String) :
    List (String × Value) :=
  [("input", inputData), ("workflow_name", .str workflowName),
   ("start_time", .str startTime)]

/-- `WorkflowOrchestrator.execute_workflow(workflow_name, input_data)`.
Returns the result dict and the successor state. `startTime`/`nowIso` stand
in for the timestamps and `execTime`/`taskDur` for the measured durations.
The `try`/`except` of the source: a raise anywhere inside (workflow lookup,
agent lookup, agent call) yields the `"failed"` dict and leaves the history
untouched; the normal path appends a `"completed"` ledger entry. -/
def executeWorkflow (agents : String → Option Agent) (st : OrchState)
    (workflowName : String) (inputData : Value)
    (startTime nowIso : String) (execTime taskDur : ℚ) :
    WorkflowResult × OrchState :=
  match dictFind? st.workflows workflowName with
  | none =>
      (.failed workflowName ("Workflow '" ++ workflowName ++ "' not found") execTime, st)
  | some wf =>
      match runTasks agents taskDur nowIso wf.tasks
          (initialContext inputData workflowName startTime) [] with
      | .error e => (.failed workflowName e execTime, st)
      | .ok (results, ctx') =>
          let finalOutput : FinalOutput :=
            match wf.output_var with
            | some ov => if ov == "" then .resultsMap results
                         else .fromContext (pyGetD ctx' ov)
            | none => .resultsMap results
          (.completed workflowName results finalOutput execTime nowIso,
           { st with history := st.history ++
               [⟨workflowName, startTime, execTime, "completed"⟩] })

/-- The synthesized result the parallel path returns for a missing agent:
`\x7b"status": "failed", "error": f"Agent \x7bagent_name\x7d not found"\x7d`. -/
def agentNotFoundDict (agentName : String) : List (String × Value) :=
  [("status", .str "failed"), ("error", .str ("Agent " ++ agentName ++ " not found"))]

/-- The inner `execute_task` closure of `execute_parallel_tasks` for one
task: a missing agent yields the synthesized failed result; otherwise the
agent runs on the resolved input (its exceptions propagate). -/
def executeOneTask (agents : String → Option Agent) (ctx : List (String × Value))
    (task : Task) : Except String (String × List (String × Value)) :=
  match agents task.agent with
  | none => .ok (task.task_id, agentNotFoundDict task.agent)
  | some ag =>
      match ag.execute (resolveVariables task.input ctx) with
      | .error e => .error e
      | .ok result => .ok (task.task_id, result)

/-- `asyncio.gather` over the batch: all per-task pairs in input order; a
raised exception aborts the whole batch with no partial results. -/
def gatherTasks (agents : String → Option Agent) (ctx : List (String × Value)) :
    List Task → Except String (List (String × List (String × Value)))
  | [] => .ok []
  | task :: rest =>
      match executeOneTask agents ctx task with
      | .error e => .error e
      | .ok pair =>
          match gatherTasks agents ctx rest with
          | .error e => .error e
          | .ok pairs => .ok (pair :: pairs)

/-- `WorkflowOrchestrator.execute_parallel_tasks(tasks, context)`: gather
all pairs, then build the result dict comprehension
`\x7btask_id: result for task_id, result in results\x7d`. -/
def executeParallelTasks (agents : String → Option Agent)
    (tasks : List Task) (ctx : List (String × Value)) :
    Except String (List (String × List (String × Value))) :=
  match gatherTasks agents ctx tasks with
  | .error e => .error e
  | .ok pairs => .ok (pairs.foldl (fun d kv => dictInsert d kv.1 kv.2) [])

/-- `WorkflowOrchestrator.get_execution_history(limit)`:
`self.execution_history[-limit:]`. Python slicing with `-0` is `0`, so a
zero limit returns the whole list; a positive limit keeps the last
`min limit length` elements in their stored order. -/
def getExecutionHistory (hist : List LedgerEntry) (limit : Nat) : List LedgerEntry :=
  if limit = 0 then hist else hist.drop (hist.length - limit)

/-- A value of the statistics dict: a count or an exact rational. -/
inductive StatVal where
  | n (v : Nat)
  | q (v : ℚ)
deriving DecidableEq

/-- `WorkflowOrchestrator.get_statistics()` over a given history and
registry sizes, as the dict the source builds. -/
def getStatistics (hist : List LedgerEntry) (nAgents nWorkflows : Nat) :
    List (String × StatVal) :=
  if hist.isEmpty then
    [("total_executions", .n 0), ("avg_duration", .q 0), ("success_rate", .q 0)]
  else
    let total := hist.length
    let successful := hist.countP (fun e => e.status == "completed")
    let durations := hist.map (fun e => e.duration)
    [("total_executions", .n total),
     ("successful_executions", .n successful),
     ("failed_executions", .n (total - successful)),
     ("success_rate", .q (if 0 < total then (successful : ℚ) / (total : ℚ) else 0)),
     ("avg_duration", .q (if durations.isEmpty then 0
                          else durations.sum / (durations.length : ℚ))),
     ("registered_agents", .n nAgents),
     ("registered_workflows", .n nWorkflows)]

/-- Orchestrator states reachable from `__init__` (empty registries, empty
history) through `register_workflow` and `execute_workflow`. -/
inductive Reachable : OrchState → Prop where
  | init : Reachable ⟨[], []⟩
  | regWorkflow {st : OrchState} (name : String) (wf : Workflow) :
      Reachable st → Reachable ⟨dictInsert st.workflows name wf, st.history⟩
  | exec {st : OrchState} (agents : String → Option Agent)
      (name : String) (input : Value) (startTime nowIso : String)
      (execTime taskDur : ℚ) :
      Reachable st →
      Reachable (executeWorkflow agents st name input startTime nowIso execTime taskDur).2

/-! ### Stepping lemmas for the reference scanner and replacer -/

theorem findRefs_nil : findRefs [] = [] := by
  rw [findRefs.eq_def]

theorem findRefs_cons_ne {c : Char} (rest : List Char) (h : c ≠ '$') :
    findRefs (c :: rest) = findRefs rest := by
  rw [findRefs.eq_def]
  split
  · simp_all
  · rename_i heq
    exact absurd (List.cons.injEq .. ▸ heq).1 h
  · simp_all

theorem findRefs_ref {rest2 body tail : List Char}
    (h : refClose rest2 = some (body, tail)) :
    findRefs ('$' :: '{' :: rest2) = body.asString :: findRefs tail := by
  rw [findRefs.eq_def]
  split
  · simp_all
  · rename_i heq
    obtain ⟨h1, h2⟩ := List.cons.injEq .. ▸ heq
    obtain ⟨h3, h4⟩ := List.cons.injEq .. ▸ h2
    subst h4
    split
    · rename_i body' tail' hsome
      rw [h] at hsome
      obtain ⟨hb, ht⟩ := Prod.mk.injEq .. ▸ (Option.some.injEq .. ▸ hsome)
      rw [hb, ht]
    · rename_i hnone
      rw [h] at hnone
      exact Option.noConfusion hnone
  · rename_i x heq
    have h1 := List.cons.injEq .. ▸ heq
    exact absurd (x rest2 h1.1.symm h1.2.symm) not_false

theorem findRefs_ref_none {rest2 : List Char} (h : refClose rest2 = none) :
    findRefs ('$' :: '{' :: rest2) = findRefs ('{' :: rest2) := by
  rw [findRefs.eq_def]
  split
  · simp_all
  · rename_i heq
    obtain ⟨h1, h2⟩ := List.cons.injEq .. ▸ heq
    obtain ⟨h3, h4⟩ := List.cons.injEq .. ▸ h2
    subst h4
    split
    · rename_i body' tail' hsome
      rw [h] at hsome
      exact Option.noConfusion hsome
    · rfl
  · simp_all

theorem strReplace_nil (old new : List Char) : strReplace [] old new = [] := by
  rw [strReplace.eq_def]

theorem strReplace_cons_pos {c : Char} {rest old : List Char} (new : List Char)
    (h : (!old.isEmpty && old.isPrefixOf (c :: rest)) = true) :
    strReplace (c :: rest) old new
      = new ++ strReplace ((c :: rest).drop old.length) old new := by
  rw [strReplace.eq_def]
  simp only [h, if_true]

theorem strReplace_cons_neg {c : Char} {rest old : List Char} (new : List Char)
    (h : (!old.isEmpty && old.isPrefixOf (c :: rest)) = false) :
    strReplace (c :: rest) old new = c :: strReplace rest old new := by
  rw [strReplace.eq_def]
  simp only [h, Bool.false_eq_true, if_false]

theorem drop_length_append (l₁ l₂ : List α) : (l₁ ++ l₂).drop l₁.length = l₂ := by
  induction l₁ with
  | nil => simp
  | cons c rest ih => simpa using ih

/-- Scanning for an occurrence of `old` skips over any leading characters
that all differ from `old`'s first character. -/
theorem strReplace_skip {a old : List Char} {d : Char}
    (hhead : old.head? = some d) (ha : ∀ c ∈ a, c ≠ d) (b new : List Char) :
    strReplace (a ++ b) old new = a ++ strReplace b old new := by
  induction a with
  | nil => simp
  | cons c a' ih =>
      have hcd : c ≠ d := ha c (by simp)
      have hne : old.isPrefixOf (c :: (a' ++ b)) = false := by
        cases old with
        | nil => simp at hhead
        | cons d' old' =>
            have hd : d' = d := by simpa using hhead
            have hbeq : (d' == c) = false := by
              simp only [beq_eq_false_iff_ne, ne_eq]
              exact fun hdc => hcd (hdc.symm.trans hd)
            simp [List.isPrefixOf, hbeq]
      have hcond : (!old.isEmpty && old.isPrefixOf (c :: (a' ++ b))) = false := by
        simp [hne]
      rw [List.cons_append, strReplace_cons_neg new hcond,
        ih (fun x hx => ha x (by simp [hx]))]
      rfl

/-- At an occurrence of `old` itself, the occurrence is replaced. -/
theorem strReplace_here {old : List Char} (hne : old ≠ []) (b new : List Char) :
    strReplace (old ++ b) old new = new ++ strReplace b old new := by
  cases old with
  | nil => exact absurd rfl hne
  | cons c o' =>
      have hpre : (c :: o').isPrefixOf ((c :: o') ++ b) = true :=
        List.isPrefixOf_iff_prefix.mpr (List.prefix_append _ _)
      have hcond : (!(c :: o').isEmpty && (c :: o').isPrefixOf ((c :: o') ++ b)) = true := by
        simp [hpre]
      rw [List.cons_append] at hcond
      rw [List.cons_append, strReplace_cons_pos new hcond, ← List.cons_append,
        drop_length_append]

/-! ### Structured templates: literal runs and references -/

/-- A structured view of a string template: a concatenation of literal
runs and `$\x7bpath\x7d` references. -/
inductive Piece where
  | lit (s : List Char)
  | ref (p : String)

/-- The characters of the literal reference text `$\x7bpath\x7d`. -/
def refChars (p : String) : List Char := '$' :: '{' :: (p.data ++ ['}'])

/-- Flatten a structured template back to its character string. -/
def mkPieces : List Piece → List Char
  | [] => []
  | .lit s :: rest => s ++ mkPieces rest
  | .ref p :: rest => refChars p ++ mkPieces rest

/-- A literal run is clean when it contains no `$` (so it can neither open
a reference nor host an occurrence of a reference text). -/
def litOK (s : List Char) : Bool := s.all (fun c => !(c == '$'))

/-- A reference path is clean when it is nonempty and contains none of
`$`, `\x7b`, `\x7d`. -/
def pathOK (p : String) : Bool :=
  !p.data.isEmpty && p.data.all (fun c => !(c == '$') && !(c == '{') && !(c == '}'))

def pieceOK : Piece → Bool
  | .lit s => litOK s
  | .ref p => pathOK p

def piecesOK (ps : List Piece) : Bool := ps.all pieceOK

/-- The reference paths of a structured template, in order. -/
def refPaths : List Piece → List String
  | [] => []
  | .lit _ :: rest => refPaths rest
  | .ref p :: rest => p :: refPaths rest

/-- Replace every reference to path `p` by the literal `v`. -/
def substPiece (p : String) (v : List Char) : Piece → Piece
  | .ref q => if q == p then .lit v else .ref q
  | x => x

/-- The meaning of one piece after resolution against `ctx`: a reference
whose path navigates to a value becomes that value's string form, any
other piece is left as is. -/
def resolvePiece (ctx : List (String × Value)) : Piece → Piece
  | .ref q =>
      match getNestedValue ctx q with
      | some v => .lit (pyStr v).data
      | none => .ref q
  | x => x

theorem refText_data (p : String) : (refText p).data = refChars p := by
  simp [refText, refChars, String.data_append]

theorem refChars_ne_nil (p : String) : refChars p ≠ [] := by
  simp [refChars]

/-! ### takeWhile/dropWhile over clean segments -/

theorem takeWhile_append_all {α : Type} (q : α → Bool) (a b : List α)
    (h : ∀ c ∈ a, q c = true) :
    (a ++ b).takeWhile q = a ++ b.takeWhile q := by
  induction a with
  | nil => simp
  | cons c rest ih =>
      have hc : q c = true := h c (by simp)
      simp only [List.cons_append, List.takeWhile_cons, hc, if_true]
      rw [ih (fun x hx => h x (by simp [hx]))]

theorem dropWhile_append_all {α : Type} (q : α → Bool) (a b : List α)
    (h : ∀ c ∈ a, q c = true) :
    (a ++ b).dropWhile q = b.dropWhile q := by
  induction a with
  | nil => simp
  | cons c rest ih =>
      have hc : q c = true := h c (by simp)
      simp only [List.cons_append, List.dropWhile_cons, hc, if_true]
      exact ih (fun x hx => h x (by simp [hx]))

/-- `refClose` at a clean path followed by its closing brace: the body is
exactly the path and scanning resumes after the brace. -/
theorem refClose_at_path {p : String} (hp : pathOK p = true) (X : List Char) :
    refClose (p.data ++ '}' :: X) = some (p.data, X) := by
  have hpd : ∀ c ∈ p.data, (decide ¬c = '}') = true := by
    intro c hc
    simp only [pathOK, Bool.and_eq_true, List.all_eq_true] at hp
    have := hp.2 c hc
    simp only [Bool.and_eq_true, Bool.not_eq_true', beq_eq_false_iff_ne, ne_eq] at this
    simp [this.2]
  have hne : ¬p.data.isEmpty = true := by
    simp only [pathOK, Bool.and_eq_true, Bool.not_eq_true'] at hp
    simp [hp.1]
  unfold refClose
  rw [dropWhile_append_all _ _ _ hpd, takeWhile_append_all _ _ _ hpd]
  have hq : (decide ¬ '}' = '}') = false := by simp
  simp only [List.dropWhile_cons, List.takeWhile_cons, hq, Bool.false_eq_true,
    if_false, List.append_nil]
  simp [hne]

/-- The scanner skips a `$`-free literal run. -/
theorem findRefs_lit_skip {s : List Char} (hs : litOK s = true) (X : List Char) :
    findRefs (s ++ X) = findRefs X := by
  induction s with
  | nil => simp
  | cons c rest ih =>
      simp only [litOK, List.all_cons, Bool.and_eq_true, Bool.not_eq_true',
        beq_eq_false_iff_ne, ne_eq] at hs
      rw [List.cons_append, findRefs_cons_ne _ hs.1]
      exact ih hs.2

/-- `re.findall` on a clean structured template returns exactly its
reference paths, in order. -/
theorem findRefs_mkPieces {ps : List Piece} (hok : piecesOK ps = true) :
    findRefs (mkPieces ps) = refPaths ps := by
  induction ps with
  | nil => exact findRefs_nil
  | cons piece rest ih =>
      have hpc : pieceOK piece = true := by
        simp only [piecesOK, List.all_cons, Bool.and_eq_true] at hok
        exact hok.1
      have hrest : piecesOK rest = true := by
        simp only [piecesOK, List.all_cons, Bool.and_eq_true] at hok
        exact hok.2
      cases piece with
      | lit s =>
          show findRefs (s ++ mkPieces rest) = refPaths (.lit s :: rest)
          rw [findRefs_lit_skip hpc, ih hrest]
          rfl
      | ref p =>
          show findRefs (refChars p ++ mkPieces rest) = refPaths (.ref p :: rest)
          have hshape : refChars p ++ mkPieces rest
              = '$' :: '{' :: (p.data ++ '}' :: mkPieces rest) := by
            simp [refChars]
          rw [hshape, findRefs_ref (refClose_at_path hpc _), ih hrest]
          have ha : (p.data).asString = p := String.asString_toList p
          rw [ha]
          rfl

/-- Two `\x7d`-free runs followed by a closing brace: if one (with its
brace) is a prefix of the other (with its brace and more), the runs are
equal. -/
theorem brace_close_eq {a b r : List Char}
    (ha : ∀ c ∈ a, c ≠ '}') (hb : ∀ c ∈ b, c ≠ '}')
    (h : (a ++ ['}']) <+: (b ++ '}' :: r)) : a = b := by
  induction a generalizing b with
  | nil =>
      cases b with
      | nil => rfl
      | cons d b' =>
          rw [List.nil_append, List.cons_append, List.cons_prefix_cons] at h
          exact absurd h.1.symm (hb d (by simp))
  | cons c a' ih =>
      cases b with
      | nil =>
          rw [List.cons_append, List.nil_append, List.cons_prefix_cons] at h
          exact absurd h.1 (ha c (by simp))
      | cons d b' =>
          rw [List.cons_append, List.cons_append, List.cons_prefix_cons] at h
          have := ih (fun x hx => ha x (by simp [hx])) (fun x hx => hb x (by simp [hx])) h.2
          rw [h.1, this]

/-- A clean path's characters contain no `\x7d`. -/
theorem pathOK_no_close {p : String} (hp : pathOK p = true) :
    ∀ c ∈ p.data, c ≠ '}' := by
  intro c hc
  simp only [pathOK, Bool.and_eq_true, List.all_eq_true] at hp
  have := hp.2 c hc
  simp only [Bool.and_eq_true, Bool.not_eq_true', beq_eq_false_iff_ne, ne_eq] at this
  exact this.2

/-- A clean path's characters contain no `$`. -/
theorem pathOK_no_dollar {p : String} (hp : pathOK p = true) :
    ∀ c ∈ p.data, c ≠ '$' := by
  intro c hc
  simp only [pathOK, Bool.and_eq_true, List.all_eq_true] at hp
  have := hp.2 c hc
  simp only [Bool.and_eq_true, Bool.not_eq_true', beq_eq_false_iff_ne, ne_eq] at this
  exact this.1.1

theorem string_data_inj {s t : String} (h : s.data = t.data) : s = t := by
  cases s with
  | mk d1 =>
      cases t with
      | mk d2 =>
          have hd : d1 = d2 := h
          rw [hd]

/-- The reference text of `p` occurs nowhere inside the reference text of a
different clean path `q`: scanning steps over it unchanged. -/
theorem strReplace_skip_ref {p q : String} (hp : pathOK p = true) (hq : pathOK q = true)
    (hne : q ≠ p) (X new : List Char) :
    strReplace (refChars q ++ X) (refChars p) new
      = refChars q ++ strReplace X (refChars p) new := by
  have hshape : refChars q ++ X = '$' :: '{' :: (q.data ++ '}' :: X) := by
    simp [refChars]
  have hnopre : (refChars p).isPrefixOf ('$' :: '{' :: (q.data ++ '}' :: X)) = false := by
    rw [Bool.eq_false_iff]
    intro hb
    have hpre := List.isPrefixOf_iff_prefix.mp hb
    rw [show refChars p = '$' :: '{' :: (p.data ++ ['}']) from rfl] at hpre
    rw [List.cons_prefix_cons] at hpre
    obtain ⟨-, hpre⟩ := hpre
    rw [List.cons_prefix_cons] at hpre
    obtain ⟨-, hpre⟩ := hpre
    have heq := brace_close_eq (pathOK_no_close hp) (pathOK_no_close hq) hpre
    exact hne (string_data_inj heq).symm
  have hcond : (!(refChars p).isEmpty
      && (refChars p).isPrefixOf ('$' :: '{' :: (q.data ++ '}' :: X))) = false := by
    simp [hnopre]
  rw [hshape, strReplace_cons_neg new hcond]
  have hblock : ∀ c ∈ ('{' :: (q.data ++ ['}'])), c ≠ '$' := by
    intro c hc
    simp only [List.mem_cons, List.mem_append] at hc
    rcases hc with rfl | hc | hc
    · decide
    · exact pathOK_no_dollar hq c hc
    · have hc' : c = '}' := by simpa using hc
      subst hc'
      decide
  have hsh2 : '{' :: (q.data ++ '}' :: X) = ('{' :: (q.data ++ ['}'])) ++ X := by simp
  rw [hsh2, strReplace_skip (show (refChars p).head? = some '$' from rfl) hblock X new]
  simp [refChars]

/-- Replacing the full reference text of clean path `p` in a clean
structured template substitutes `v` for exactly the references to `p`,
leaving every other piece intact. -/
theorem strReplace_mkPieces {ps : List Piece} (hok : piecesOK ps = true)
    {p : String} (hp : pathOK p = true) (v : List Char) :
    strReplace (mkPieces ps) (refChars p) v = mkPieces (ps.map (substPiece p v)) := by
  induction ps with
  | nil => exact strReplace_nil _ _
  | cons piece rest ih =>
      have hpc : pieceOK piece = true := by
        simp only [piecesOK, List.all_cons, Bool.and_eq_true] at hok
        exact hok.1
      have hrest : piecesOK rest = true := by
        simp only [piecesOK, List.all_cons, Bool.and_eq_true] at hok
        exact hok.2
      cases piece with
      | lit s =>
          show strReplace (s ++ mkPieces rest) (refChars p) v
            = mkPieces (.lit s :: rest.map (substPiece p v))
          have hs : ∀ c ∈ s, c ≠ '$' := by
            intro c hc
            have hl := hpc
            simp only [pieceOK, litOK, List.all_eq_true, Bool.not_eq_true',
              beq_eq_false_iff_ne, ne_eq] at hl
            exact hl c hc
          rw [strReplace_skip (show (refChars p).head? = some '$' from rfl) hs _ _,
            ih hrest]
          rfl
      | ref q =>
          by_cases hqp : q = p
          · subst hqp
            show strReplace (refChars q ++ mkPieces rest) (refChars q) v
              = mkPieces (substPiece q v (.ref q) :: rest.map (substPiece q v))
            rw [strReplace_here (refChars_ne_nil q) _ _, ih hrest]
            have hsp : substPiece q v (.ref q) = .lit v := by
              simp [substPiece]
            rw [hsp]
            rfl
          · show strReplace (refChars q ++ mkPieces rest) (refChars p) v
              = mkPieces (substPiece p v (.ref q) :: rest.map (substPiece p v))
            rw [strReplace_skip_ref hp hpc hqp _ _, ih hrest]
            have hsp : substPiece p v (.ref q) = .ref q := by
              simp [substPiece, hqp]
            rw [hsp]
            rfl

/-- Substituting a `$`-free literal for `p` preserves template
cleanliness. -/
theorem piecesOK_substPiece {ps : List Piece} (hok : piecesOK ps = true)
    (p : String) {v : List Char} (hv : litOK v = true) :
    piecesOK (ps.map (substPiece p v)) = true := by
  induction ps with
  | nil => rfl
  | cons piece rest ih =>
      simp only [piecesOK, List.all_cons, Bool.and_eq_true] at hok
      have hrest := ih hok.2
      cases piece with
      | lit s =>
          simp only [List.map_cons, piecesOK, List.all_cons, Bool.and_eq_true]
          exact ⟨hok.1, hrest⟩
      | ref q =>
          simp only [List.map_cons, piecesOK, List.all_cons, Bool.and_eq_true]
          refine ⟨?_, hrest⟩
          by_cases hqp : q = p
          · simp [substPiece, hqp, pieceOK, hv]
          · simp only [substPiece, beq_iff_eq, hqp, if_false]
            exact hok.1

/-- The cumulative effect of the resolution fold on a structured template:
process the match list left to right, substituting the value's string form
for every reference to a successfully navigated path. -/
def substList (ctx : List (String × Value)) : List Piece → List String → List Piece
  | ps, [] => ps
  | ps, m :: rest =>
      match getNestedValue ctx m with
      | some v => substList ctx (ps.map (substPiece m (pyStr v).data)) rest
      | none => substList ctx ps rest

/-- One piece's fate once the whole match list `ms` has been processed. -/
def finalPiece (ctx : List (String × Value)) (ms : List String) : Piece → Piece
  | .ref q => if q ∈ ms then resolvePiece ctx (.ref q) else .ref q
  | x => x

theorem paths_pathOK {ps : List Piece} (hok : piecesOK ps = true) :
    ∀ m ∈ refPaths ps, pathOK m = true := by
  induction ps with
  | nil => simp [refPaths]
  | cons piece rest ih =>
      simp only [piecesOK, List.all_cons, Bool.and_eq_true] at hok
      intro m hm
      cases piece with
      | lit s => exact ih hok.2 m hm
      | ref q =>
          simp only [refPaths, List.mem_cons] at hm
          rcases hm with rfl | hm
          · exact hok.1
          · exact ih hok.2 m hm

theorem fold_resolve_aux (ctx : List (String × Value)) (ms : List String) :
    ∀ (ps : List Piece), piecesOK ps = true →
    (∀ m ∈ ms, pathOK m = true) →
    (∀ m ∈ ms, ∀ v, getNestedValue ctx m = some v → litOK (pyStr v).data = true) →
    List.foldl
      (fun acc m =>
        match getNestedValue ctx m with
        | some v => strReplace acc (refText m).data (pyStr v).data
        | none => acc)
      (mkPieces ps) ms
    = mkPieces (substList ctx ps ms) := by
  induction ms with
  | nil => intro ps _ _ _; rfl
  | cons m rest ih =>
      intro ps hok hpaths hvals
      cases hm : getNestedValue ctx m with
      | none =>
          simp only [List.foldl_cons, hm]
          rw [show substList ctx ps (m :: rest)
              = substList ctx ps rest by rw [substList, hm]]
          exact ih ps hok (fun x hx => hpaths x (by simp [hx]))
            (fun x hx => hvals x (by simp [hx]))
      | some v =>
          simp only [List.foldl_cons, hm]
          rw [refText_data, strReplace_mkPieces hok (hpaths m (by simp)) _]
          rw [show substList ctx ps (m :: rest)
              = substList ctx (ps.map (substPiece m (pyStr v).data)) rest
              by rw [substList, hm]]
          exact ih _ (piecesOK_substPiece hok m (hvals m (by simp) v hm))
            (fun x hx => hpaths x (by simp [hx]))
            (fun x hx => hvals x (by simp [hx]))

theorem substList_eq_map (ctx : List (String × Value)) (ms : List String) :
    ∀ ps : List Piece, substList ctx ps ms = ps.map (finalPiece ctx ms) := by
  induction ms with
  | nil =>
      intro ps
      rw [substList]
      induction ps with
      | nil => rfl
      | cons piece rest ihp =>
          rw [List.map_cons, ← ihp]
          cases piece <;> rfl
  | cons m rest ih =>
      intro ps
      cases hm : getNestedValue ctx m with
      | none =>
          rw [show substList ctx ps (m :: rest) = substList ctx ps rest
              by rw [substList, hm]]
          rw [ih ps]
          have hfp : finalPiece ctx rest = finalPiece ctx (m :: rest) := by
            funext piece
            cases piece with
            | lit s => rfl
            | ref q =>
                simp only [finalPiece, List.mem_cons]
                by_cases hq : q = m
                · subst hq
                  by_cases hqr : q ∈ rest <;> simp [hqr, resolvePiece, hm]
                · by_cases hqr : q ∈ rest <;> simp [hq, hqr]
          rw [hfp]
      | some v =>
          rw [show substList ctx ps (m :: rest)
              = substList ctx (ps.map (substPiece m (pyStr v).data)) rest
              by rw [substList, hm]]
          rw [ih _, List.map_map]
          have hfp : (finalPiece ctx rest ∘ substPiece m (pyStr v).data)
              = finalPiece ctx (m :: rest) := by
            funext piece
            cases piece with
            | lit s => rfl
            | ref q =>
                simp only [Function.comp_apply, substPiece, finalPiece,
                  List.mem_cons, beq_iff_eq]
                by_cases hq : q = m
                · subst hq
                  simp [finalPiece, resolvePiece, hm]
                · by_cases hqr : q ∈ rest <;> simp [hq, hqr, finalPiece]
          rw [hfp]

theorem refPaths_of_mem {ps : List Piece} {q : String} (h : Piece.ref q ∈ ps) :
    q ∈ refPaths ps := by
  induction ps with
  | nil => simp at h
  | cons piece rest ih =>
      rcases List.mem_cons.mp h with heq | hmem
      · rw [← heq]
        simp [refPaths]
      · cases piece with
        | lit s => exact ih hmem
        | ref p =>
            simp only [refPaths, List.mem_cons]
            exact Or.inr (ih hmem)

/-- The string branch of `_resolve_variables` on a clean structured
template: each reference whose path navigates to a value becomes that
value's string form, every other reference keeps its literal text, and
literal runs are untouched. -/
theorem resolveChars_mkPieces (ctx : List (String × Value)) (ps : List Piece)
    (hok : piecesOK ps = true)
    (hvals : ∀ m ∈ refPaths ps, ∀ v, getNestedValue ctx m = some v →
      litOK (pyStr v).data = true) :
    resolveChars ctx (mkPieces ps) = mkPieces (ps.map (resolvePiece ctx)) := by
  unfold resolveChars
  rw [findRefs_mkPieces hok,
    fold_resolve_aux ctx (refPaths ps) ps hok (paths_pathOK hok) hvals,
    substList_eq_map ctx (refPaths ps) ps]
  have hcg : ∀ piece ∈ ps, finalPiece ctx (refPaths ps) piece = resolvePiece ctx piece := by
    intro piece hmem
    cases piece with
    | lit s => rfl
    | ref q => simp [finalPiece, refPaths_of_mem hmem]
  exact congrArg mkPieces (List.map_congr_left hcg)

theorem resolveVariables_str (s : String) (ctx : List (String × Value)) :
    resolveVariables (.str s) ctx = .str (resolveString s ctx) := by
  rw [resolveVariables]

/-! ### C1 — variable substitution -/

/-- C1: resolving a string template (structured as clean literal runs and
`$\x7bpath\x7d` references, with substituted values whose string forms are
`$`-free) substitutes each reference whose dot-separated path navigates the
context to a (non-null) value with that value's string form, and leaves the
literal reference text unchanged whenever navigation fails; the two
concrete examples of the claim are the witness below. -/
theorem c1_variable_substitution (ctx : List (String × Value)) (ps : List Piece)
    (hok : piecesOK ps = true)
    (hvals : ∀ m ∈ refPaths ps, ∀ v, getNestedValue ctx m = some v →
      litOK (pyStr v).data = true) :
    resolveVariables (.str (mkPieces ps).asString) ctx
      = .str (mkPieces (ps.map (resolvePiece ctx))).asString := by
  rw [resolveVariables_str, resolveString]
  have hdata : ((mkPieces ps).asString).data = mkPieces ps := rfl
  rw [hdata, resolveChars_mkPieces ctx ps hok hvals]

/-- C1 witness: the claim's two concrete examples, derived by applying the
theorem at the corresponding structured templates. -/
theorem c1_variable_substitution_witness :
    resolveVariables (.str "value=$\x7ba.b\x7d") [("a", .dict [("b", .str "X")])]
      = .str "value=X"
    ∧ resolveVariables (.str "value=$\x7ba.c\x7d") [("a", .dict [("b", .str "X")])]
      = .str "value=$\x7ba.c\x7d" := by
  constructor
  · have h := c1_variable_substitution [("a", .dict [("b", .str "X")])]
      [.lit "value=".data, .ref "a.b"]
      (by decide)
      (by
        intro m hm v hv
        have hm' : m = "a.b" := by
          simpa [refPaths] using hm
        subst hm'
        have : getNestedValue [("a", Value.dict [("b", Value.str "X")])] "a.b"
            = some (.str "X") := rfl
        rw [this] at hv
        obtain rfl : v = Value.str "X" := (Option.some.injEq .. ▸ hv).symm
        decide)
    exact h
  · have h := c1_variable_substitution [("a", .dict [("b", .str "X")])]
      [.lit "value=".data, .ref "a.c"]
      (by decide)
      (by
        intro m hm v hv
        have hm' : m = "a.c" := by
          simpa [refPaths] using hm
        subst hm'
        have hnone : getNestedValue [("a", Value.dict [("b", Value.str "X")])] "a.c"
            = none := rfl
        rw [hnone] at hv
        exact Option.noConfusion hv)
    exact h

theorem findRefs_of_no_dollar {s : List Char} (hs : litOK s = true) :
    findRefs s = [] := by
  have h := findRefs_lit_skip hs []
  rwa [List.append_nil, findRefs_nil] at h

/-! ### C9 — reference-free templates -/

/-- A string hosts no `$\x7b...\x7d` reference when the scanner finds no
match in it. -/
def refsFreeStr (s : String) : Bool := (findRefs s.data).isEmpty

mutual

/-- A template (string, mapping, sequence or other value) contains no
`$\x7b...\x7d` reference anywhere. -/
def refsFree : Value → Bool
  | .str s => refsFreeStr s
  | .dict kvs => refsFreePairs kvs
  | .list xs => refsFreeList xs
  | _ => true

def refsFreePairs : List (String × Value) → Bool
  | [] => true
  | (_, v) :: rest => refsFree v && refsFreePairs rest

def refsFreeList : List Value → Bool
  | [] => true
  | v :: rest => refsFree v && refsFreeList rest

end

mutual

theorem resolve_refsFree (ctx : List (String × Value)) :
    ∀ t : Value, refsFree t = true → resolveVariables t ctx = t
  | .null, _ => by simp [resolveVariables]
  | .str s, h => by
      rw [resolveVariables]
      have hfind : findRefs s.data = [] := by
        have h' : (findRefs s.data).isEmpty = true := by
          simpa [refsFree, refsFreeStr] using h
        simpa using h'
      rw [resolveString, resolveChars, hfind]
      have ha : ((s.data).asString : String) = s := String.asString_toList s
      rw [List.foldl_nil, ha]
  | .int n, _ => by simp [resolveVariables]
  | .bool b, _ => by simp [resolveVariables]
  | .dict kvs, h => by
      rw [resolveVariables]
      rw [resolvePairs_refsFree ctx kvs (by simpa [refsFree] using h)]
  | .list xs, h => by
      rw [resolveVariables]
      rw [resolveList_refsFree ctx xs (by simpa [refsFree] using h)]

theorem resolvePairs_refsFree (ctx : List (String × Value)) :
    ∀ kvs : List (String × Value), refsFreePairs kvs = true → resolvePairs kvs ctx = kvs
  | [], _ => by rw [resolvePairs]
  | (k, v) :: rest, h => by
      rw [resolvePairs]
      have h1 : refsFree v = true := by
        simp only [refsFreePairs, Bool.and_eq_true] at h
        exact h.1
      have h2 : refsFreePairs rest = true := by
        simp only [refsFreePairs, Bool.and_eq_true] at h
        exact h.2
      rw [resolve_refsFree ctx v h1, resolvePairs_refsFree ctx rest h2]

theorem resolveList_refsFree (ctx : List (String × Value)) :
    ∀ xs : List Value, refsFreeList xs = true → resolveList xs ctx = xs
  | [], _ => by rw [resolveList]
  | v :: rest, h => by
      rw [resolveList]
      have h1 : refsFree v = true := by
        simp only [refsFreeList, Bool.and_eq_true] at h
        exact h.1
      have h2 : refsFreeList rest = true := by
        simp only [refsFreeList, Bool.and_eq_true] at h
        exact h.2
      rw [resolve_refsFree ctx v h1, resolveList_refsFree ctx rest h2]

end

/-- C9: resolving a template containing no `$\x7b...\x7d` references
returns a structurally equal result, regardless of context contents. (The
no-mutation half of the claim is inherent here: the embedded transform is a
pure function of its arguments, mirroring the source, which rebuilds dicts
and lists and never writes to its inputs.) -/
theorem c9_idempotent_resolution (t : Value) (ctx : List (String × Value))
    (h : refsFree t = true) : resolveVariables t ctx = t :=
  resolve_refsFree ctx t h

/-- C9 witness. -/
theorem c9_idempotent_resolution_witness :
    resolveVariables
        (.dict [("a", .str "hello"), ("b", .list [.int 1, .null, .bool true])])
        [("a", .dict [("b", .str "X")])]
      = .dict [("a", .str "hello"), ("b", .list [.int 1, .null, .bool true])] := by
  apply c9_idempotent_resolution
  have h1 : findRefs "hello".data = [] := findRefs_of_no_dollar (by decide)
  simp [refsFree, refsFreePairs, refsFreeList, refsFreeStr, h1]

/-! ### Association-list helper lemmas -/

theorem dictFind?_dictInsert_self {α : Type} (l : List (String × α)) (k : String) (v : α) :
    dictFind? (dictInsert l k v) k = some v := by
  induction l with
  | nil => simp [dictFind?, dictInsert]
  | cons kv rest ih =>
      obtain ⟨k', v'⟩ := kv
      by_cases h : k' = k
      · subst h
        simp [dictFind?, dictInsert]
      · simp only [dictInsert, beq_iff_eq, h, if_false]
        simp only [dictFind?, List.find?] at ih ⊢
        have : (k' == k) = false := by simp [h]
        simp [this, ih]

theorem dictFind?_dictInsert_ne {α : Type} (l : List (String × α)) {k k' : String}
    (v : α) (h : k' ≠ k) :
    dictFind? (dictInsert l k v) k' = dictFind? l k' := by
  have hb : (k == k') = false := by
    simp only [beq_eq_false_iff_ne, ne_eq]
    exact fun hkk => h (hkk.symm)
  induction l with
  | nil => simp [dictFind?, dictInsert, List.find?, hb]
  | cons kv rest ih =>
      obtain ⟨k₀, v₀⟩ := kv
      by_cases hk : k₀ = k
      · subst hk
        simp [dictFind?, dictInsert, List.find?, hb]
      · simp only [dictInsert, beq_iff_eq, hk, if_false]
        simp only [dictFind?, List.find?] at ih ⊢
        cases hk0 : (k₀ == k') with
        | true => simp [hk0]
        | false => simp [hk0, ih]

/-! ### C6 — execution-history query -/

/-- C6 counterexample: with two recorded entries and `limit = 2`,
`get_execution_history` returns them oldest first, not most recent first
as the claim states. -/
theorem c6_history_counterexample :
    getExecutionHistory
        [⟨"w1", "t1", 0, "completed"⟩, ⟨"w2", "t2", 0, "completed"⟩] 2
      = [⟨"w1", "t1", 0, "completed"⟩, ⟨"w2", "t2", 0, "completed"⟩]
    ∧ getExecutionHistory
        [⟨"w1", "t1", 0, "completed"⟩, ⟨"w2", "t2", 0, "completed"⟩] 2
      ≠ [⟨"w2", "t2", 0, "completed"⟩, ⟨"w1", "t1", 0, "completed"⟩] := by
  constructor
  · rfl
  · intro h
    rw [show getExecutionHistory
        [⟨"w1", "t1", 0, "completed"⟩, ⟨"w2", "t2", 0, "completed"⟩] 2
      = [⟨"w1", "t1", 0, "completed"⟩, ⟨"w2", "t2", 0, "completed"⟩] from rfl] at h
    simp at h

/-- C6 (amended): for every history and every positive `n`, the history
query returns the last `min n length` recorded entries as a suffix of the
history, i.e. in chronological (oldest-first) order; for `n = 0` it returns
the entire history. -/
theorem c6_history_last_chronological (hist : List LedgerEntry) (n : Nat) :
    (0 < n →
      getExecutionHistory hist n <:+ hist
      ∧ (getExecutionHistory hist n).length = min n hist.length)
    ∧ getExecutionHistory hist 0 = hist := by
  constructor
  · intro hn
    have hne : n ≠ 0 := Nat.pos_iff_ne_zero.mp hn
    unfold getExecutionHistory
    rw [if_neg hne]
    refine ⟨List.drop_suffix _ _, ?_⟩
    rw [List.length_drop]
    omega
  · unfold getExecutionHistory
    rw [if_pos rfl]

/-- C6 witness. -/
theorem c6_history_witness :
    getExecutionHistory
        [⟨"w1", "t1", 0, "completed"⟩, ⟨"w2", "t2", 0, "completed"⟩] 1
      <:+ [⟨"w1", "t1", 0, "completed"⟩, ⟨"w2", "t2", 0, "completed"⟩]
    ∧ (getExecutionHistory
        [⟨"w1", "t1", 0, "completed"⟩, ⟨"w2", "t2", 0, "completed"⟩] 1).length
      = min 1 2 :=
  (c6_history_last_chronological
    [⟨"w1", "t1", 0, "completed"⟩, ⟨"w2", "t2", 0, "completed"⟩] 1).1 (by decide)

/-! ### C7 — statistics -/

/-- C7: the statistics report `total` = number of entries, `successful` =
number of entries with status `"completed"`, `success_rate` =
`successful / total` and `avg_duration` = mean duration for a non-empty
history, with `0` defaults for the empty history; and on the concrete
history with durations `[2, 4]` and statuses `["completed", "failed"]` the
report is `total = 2`, `successful = 1`, `success_rate = 1/2`,
`avg_duration = 3`. -/
theorem c7_statistics (hist : List LedgerEntry) (a w : Nat) :
    (hist ≠ [] →
      dictFind? (getStatistics hist a w) "total_executions" = some (.n hist.length)
      ∧ dictFind? (getStatistics hist a w) "successful_executions"
          = some (.n (hist.countP (fun e => e.status == "completed")))
      ∧ dictFind? (getStatistics hist a w) "success_rate"
          = some (.q ((hist.countP (fun e => e.status == "completed") : ℚ)
              / (hist.length : ℚ)))
      ∧ dictFind? (getStatistics hist a w) "avg_duration"
          = some (.q ((hist.map (fun e => e.duration)).sum / (hist.length : ℚ))))
    ∧ (dictFind? (getStatistics [] a w) "total_executions" = some (.n 0)
        ∧ dictFind? (getStatistics [] a w) "success_rate" = some (.q 0)
        ∧ dictFind? (getStatistics [] a w) "avg_duration" = some (.q 0))
    ∧ (dictFind? (getStatistics
          [⟨"w", "t", 2, "completed"⟩, ⟨"w", "t", 4, "failed"⟩] 0 0)
          "total_executions" = some (.n 2)
        ∧ dictFind? (getStatistics
          [⟨"w", "t", 2, "completed"⟩, ⟨"w", "t", 4, "failed"⟩] 0 0)
          "successful_executions" = some (.n 1)
        ∧ dictFind? (getStatistics
          [⟨"w", "t", 2, "completed"⟩, ⟨"w", "t", 4, "failed"⟩] 0 0)
          "success_rate" = some (.q (1 / 2))
        ∧ dictFind? (getStatistics
          [⟨"w", "t", 2, "completed"⟩, ⟨"w", "t", 4, "failed"⟩] 0 0)
          "avg_duration" = some (.q 3)) := by
  refine ⟨?_, ?_, ?_⟩
  · intro hne
    have hempty : hist.isEmpty = false := by
      cases hist with
      | nil => exact absurd rfl hne
      | cons _ _ => rfl
    have hpos : 0 < hist.length := List.length_pos.mpr hne
    have hmapne : (hist.map (fun e => e.duration)).isEmpty = false := by
      cases hist with
      | nil => exact absurd rfl hne
      | cons _ _ => rfl
    unfold getStatistics
    rw [hempty]
    simp only [Bool.false_eq_true, if_false, hpos, if_true, hmapne,
      List.length_map]
    refine ⟨?_, ?_, ?_, ?_⟩ <;> rfl
  · refine ⟨rfl, rfl, rfl⟩
  · refine ⟨rfl, rfl, ?_, ?_⟩
    · show some (StatVal.q (((1 : ℕ) : ℚ) / ((2 : ℕ) : ℚ)))
        = some (StatVal.q (1 / 2))
      norm_num
    · show some (StatVal.q ([(2 : ℚ), (4 : ℚ)].sum / ((2 : ℕ) : ℚ)))
        = some (StatVal.q 3)
      norm_num

/-- C7 witness. -/
theorem c7_statistics_witness :
    dictFind? (getStatistics [⟨"w", "t", 2, "completed"⟩] 0 0) "success_rate"
      = some (.q ((1 : ℚ) / (1 : ℚ))) :=
  ((c7_statistics [⟨"w", "t", 2, "completed"⟩] 0 0).1 (by simp)).2.2.1

/-! ### Concrete agents shared by the execution witnesses -/

/-- An agent whose capability call reports an ordinary failure. -/
def agFail : Agent := ⟨fun _ => .ok [("status", .str "failed")]⟩

/-- An agent whose capability call completes normally. -/
def agDone : Agent := ⟨fun _ => .ok [("status", .str "completed")]⟩

/-- A registry with a failing agent `a1` and a completing agent `a2`. -/
def regTwo : String → Option Agent := fun n =>
  if n == "a1" then some agFail else if n == "a2" then some agDone else none

/-- The empty agent registry. -/
def regNone : String → Option Agent := fun _ => none

/-! ### C4 — halt / continue on task failure -/

/-- Shared helper: one failing step with `continue_on_failure` unset breaks
the loop, returning the maps as updated by that step. -/
theorem runTasks_halt {agents : String → Option Agent} {taskDur : ℚ}
    {nowIso : String} {task : Task} {rest : List Task}
    {ctx : List (String × Value)} {results : List (String × TaskRecord)}
    {ag : Agent} {result : List (String × Value)}
    (hag : agents task.agent = some ag)
    (hexec : ag.execute (resolveVariables task.input ctx) = .ok result)
    (hfail : (pyGetD result "status" == Value.str "failed") = true)
    (hcont : task.continue_on_failure = false) :
    runTasks agents taskDur nowIso (task :: rest) ctx results
      = .ok (dictInsert results task.task_id ⟨task.agent, result, taskDur, nowIso⟩,
             dictInsert ctx task.task_id (.dict result)) := by
  rw [runTasks]
  simp only [hag, hexec, hfail, hcont, Bool.not_false, Bool.and_self, if_true]

/-- C4: in the sequential loop, when the current task's result has status
`"failed"`, the next task is dispatched iff `continue_on_failure` is true:
with the flag false the loop stops at once with the failed task's entry in
the results map and the remaining tasks' (fresh) ids absent; with the flag
true the loop proceeds to the remaining tasks. -/
theorem c4_halt_on_failure (agents : String → Option Agent) (taskDur : ℚ)
    (nowIso : String) (task : Task) (rest : List Task)
    (ctx : List (String × Value)) (results : List (String × TaskRecord))
    (ag : Agent) (result : List (String × Value))
    (hag : agents task.agent = some ag)
    (hexec : ag.execute (resolveVariables task.input ctx) = .ok result)
    (hfail : (pyGetD result "status" == Value.str "failed") = true) :
    (task.continue_on_failure = false →
      runTasks agents taskDur nowIso (task :: rest) ctx results
        = .ok (dictInsert results task.task_id ⟨task.agent, result, taskDur, nowIso⟩,
               dictInsert ctx task.task_id (.dict result))
      ∧ dictFind? (dictInsert results task.task_id
            (⟨task.agent, result, taskDur, nowIso⟩ : TaskRecord)) task.task_id
          = some ⟨task.agent, result, taskDur, nowIso⟩
      ∧ ∀ t' ∈ rest, t'.task_id ≠ task.task_id →
          dictFind? (dictInsert results task.task_id
              (⟨task.agent, result, taskDur, nowIso⟩ : TaskRecord)) t'.task_id
            = dictFind? results t'.task_id)
    ∧ (task.continue_on_failure = true →
      runTasks agents taskDur nowIso (task :: rest) ctx results
        = runTasks agents taskDur nowIso rest
            (dictInsert ctx task.task_id (.dict result))
            (dictInsert results task.task_id
              ⟨task.agent, result, taskDur, nowIso⟩)) := by
  constructor
  · intro hcont
    refine ⟨runTasks_halt hag hexec hfail hcont, dictFind?_dictInsert_self _ _ _, ?_⟩
    intro t' _ hne
    exact dictFind?_dictInsert_ne _ _ hne
  · intro hcont
    rw [runTasks]
    simp only [hag, hexec, hfail, hcont, Bool.not_true, Bool.and_false,
      Bool.false_eq_true, if_false]

/-- C4 witness: a failing task with the flag unset halts the loop with only
its own entry added. -/
theorem c4_halt_on_failure_witness :
    runTasks regTwo 0 "t"
        [⟨"t1", "a1", .null, false⟩, ⟨"t2", "a2", .null, false⟩] [] []
      = .ok (dictInsert [] "t1" ⟨"a1", [("status", .str "failed")], 0, "t"⟩,
             dictInsert [] "t1" (.dict [("status", .str "failed")])) :=
  ((c4_halt_on_failure regTwo 0 "t" ⟨"t1", "a1", .null, false⟩
      [⟨"t2", "a2", .null, false⟩] [] [] agFail [("status", .str "failed")]
      rfl rfl (by simp [BEq.beq, beqValue, pyGetD])).1 rfl).1

/-! ### C5 — record status and ledger append -/

/-- C5: whenever the task loop ends without an escaping exception — whether
it ran to completion or stopped early on a failed task — the run's record
has status `"completed"` and a ledger entry is appended; a `"failed"`
record (carrying the exception message) arises only when an exception
escapes the loop, and then nothing is appended. -/
theorem c5_completed_on_break (agents : String → Option Agent) (st : OrchState)
    (name : String) (input : Value) (startTime nowIso : String)
    (execTime taskDur : ℚ) (wf : Workflow)
    (hwf : dictFind? st.workflows name = some wf) :
    (∀ results ctx',
      runTasks agents taskDur nowIso wf.tasks
          (initialContext input name startTime) [] = .ok (results, ctx') →
      ((executeWorkflow agents st name input startTime nowIso execTime taskDur).1).statusStr
          = "completed"
      ∧ ((executeWorkflow agents st name input startTime nowIso execTime taskDur).2).history
          = st.history ++ [⟨name, startTime, execTime, "completed"⟩])
    ∧ (∀ e,
      runTasks agents taskDur nowIso wf.tasks
          (initialContext input name startTime) [] = .error e →
      (executeWorkflow agents st name input startTime nowIso execTime taskDur).1
          = .failed name e execTime
      ∧ ((executeWorkflow agents st name input startTime nowIso execTime taskDur).2).history
          = st.history) := by
  constructor
  · intro results ctx' hrun
    rw [executeWorkflow]
    simp only [hwf, hrun]
    refine ⟨?_, ?_⟩ <;> first | rfl | trivial
  · intro e hrun
    rw [executeWorkflow]
    simp only [hwf, hrun]
    refine ⟨?_, ?_⟩ <;> first | rfl | trivial

/-- C5 witness: a run whose only task fails (flag unset) breaks the loop
early, yet the record says `"completed"` and the ledger gains an entry. -/
theorem c5_completed_on_break_witness :
    ((executeWorkflow regTwo ⟨[("w", ⟨[⟨"t1", "a1", .null, false⟩], none⟩)], []⟩
        "w" .null "s" "n" 0 0).1).statusStr = "completed"
    ∧ ((executeWorkflow regTwo ⟨[("w", ⟨[⟨"t1", "a1", .null, false⟩], none⟩)], []⟩
        "w" .null "s" "n" 0 0).2).history
      = [] ++ [⟨"w", "s", 0, "completed"⟩] :=
  (c5_completed_on_break regTwo ⟨[("w", ⟨[⟨"t1", "a1", .null, false⟩], none⟩)], []⟩
      "w" .null "s" "n" 0 0 ⟨[⟨"t1", "a1", .null, false⟩], none⟩ rfl).1
    (dictInsert [] "t1" ⟨"a1", [("status", .str "failed")], 0, "n"⟩)
    (dictInsert (initialContext .null "w" "s") "t1" (.dict [("status", .str "failed")]))
    (runTasks_halt rfl rfl (by simp [BEq.beq, beqValue, pyGetD]) rfl)

/-! ### C2 — workflow output selection -/

/-- C2 counterexample: a workflow whose `output_var` is set but absent from
the final context. The claim says the output should then be the full
per-task results map (here `[]`); the code instead returns
`context.get(output_var)`, i.e. `None`. -/
theorem c2_output_counterexample :
    (executeWorkflow regNone ⟨[("w", ⟨[], some "missing"⟩)], []⟩
        "w" (.dict []) "s" "n" 0 0).1
      = .completed "w" [] (.fromContext .null) 0 "n"
    ∧ FinalOutput.fromContext Value.null ≠ FinalOutput.resultsMap [] := by
  constructor
  · rfl
  · intro h
    exact FinalOutput.noConfusion h

/-- C2 (amended): after the task loop ends without an escaping exception,
the output is `context.get(output_var)` — the navigated value when the key
is present and `None` when absent — whenever `output_var` is set and
nonempty, and it is the full per-task results map only when `output_var` is
unset (or empty, which Python treats as falsy). -/
theorem c2_output_selection (agents : String → Option Agent) (st : OrchState)
    (name : String) (input : Value) (startTime nowIso : String)
    (execTime taskDur : ℚ) (wf : Workflow)
    (hwf : dictFind? st.workflows name = some wf)
    (results : List (String × TaskRecord)) (ctx' : List (String × Value))
    (hrun : runTasks agents taskDur nowIso wf.tasks
        (initialContext input name startTime) [] = .ok (results, ctx')) :
    (∀ ov, wf.output_var = some ov → (ov == "") = false →
      ((executeWorkflow agents st name input startTime nowIso execTime taskDur).1).outputOf
        = some (.fromContext (pyGetD ctx' ov)))
    ∧ (wf.output_var = none →
      ((executeWorkflow agents st name input startTime nowIso execTime taskDur).1).outputOf
        = some (.resultsMap results))
    ∧ (wf.output_var = some "" →
      ((executeWorkflow agents st name input startTime nowIso execTime taskDur).1).outputOf
        = some (.resultsMap results)) := by
  refine ⟨?_, ?_, ?_⟩
  · intro ov hov hove
    rw [executeWorkflow]
    simp only [hwf, hrun, hov, hove, Bool.false_eq_true, if_false]
    rfl
  · intro hov
    rw [executeWorkflow]
    simp only [hwf, hrun, hov]
    rfl
  · intro hov
    rw [executeWorkflow]
    simp only [hwf, hrun, hov]
    rfl

/-- C2 witness. -/
theorem c2_output_selection_witness :
    ((executeWorkflow regNone ⟨[("w", ⟨[], some "missing"⟩)], []⟩
        "w" (.dict []) "s" "n" 0 0).1).outputOf
      = some (.fromContext (pyGetD (initialContext (.dict []) "w" "s") "missing")) :=
  (c2_output_selection regNone ⟨[("w", ⟨[], some "missing"⟩)], []⟩
      "w" (.dict []) "s" "n" 0 0 ⟨[], some "missing"⟩ rfl
      [] (initialContext (.dict []) "w" "s") rfl).1
    "missing" rfl rfl

/-! ### C3 — missing-agent handling -/

/-- C3 counterexample: a sequential workflow whose first task names an
unregistered agent (`continue_on_failure = true`) and whose second task's
agent is registered. The claim predicts a synthesized failed TaskResult and
a continued run; the code raises `ValueError`, so the whole run ends as a
workflow-level `"failed"` record with the raise's message, no per-task
results at all. -/
theorem c3_agent_not_found_counterexample :
    (executeWorkflow regTwo
        ⟨[("w", ⟨[⟨"t1", "ghost", .null, true⟩, ⟨"t2", "a2", .null, false⟩],
           none⟩)], []⟩
        "w" .null "s" "n" 0 0).1
      = .failed "w" "Agent 'ghost' not found" 0 := by
  rfl

/-- C3 (amended): in parallel dispatch a task naming an unregistered agent
gets the synthesized result `\x7bstatus: "failed", error: "Agent <name> not
found"\x7d` and its siblings still complete; in sequential dispatch the
runner instead raises `ValueError("Agent '<name>' not found")`, which the
workflow-level handler converts into an overall failed record, so
`continue_on_failure` is never consulted there. -/
theorem c3_agent_not_found (agents : String → Option Agent) :
    (∀ (taskDur : ℚ) (nowIso : String) (task : Task) (rest : List Task)
        (ctx : List (String × Value)) (results : List (String × TaskRecord)),
      agents task.agent = none →
      runTasks agents taskDur nowIso (task :: rest) ctx results
        = .error ("Agent '" ++ task.agent ++ "' not found"))
    ∧ (∀ (ctx : List (String × Value)) (task : Task),
      agents task.agent = none →
      executeOneTask agents ctx task
        = .ok (task.task_id, agentNotFoundDict task.agent))
    ∧ (∀ (ctx : List (String × Value)) (task : Task) (rest : List Task)
        (pairs : List (String × List (String × Value))),
      agents task.agent = none →
      gatherTasks agents ctx rest = .ok pairs →
      gatherTasks agents ctx (task :: rest)
        = .ok ((task.task_id, agentNotFoundDict task.agent) :: pairs)) := by
  refine ⟨?_, ?_, ?_⟩
  · intro taskDur nowIso task rest ctx results hag
    rw [runTasks]
    simp only [hag]
  · intro ctx task hag
    rw [executeOneTask]
    simp only [hag]
  · intro ctx task rest pairs hag hpairs
    have hone : executeOneTask agents ctx task
        = .ok (task.task_id, agentNotFoundDict task.agent) := by
      rw [executeOneTask]
      simp only [hag]
    rw [gatherTasks]
    simp only [hone, hpairs]

/-- C3 witness: a parallel batch with one unregistered and one registered
agent — the missing member is synthesized, the sibling completes. -/
theorem c3_agent_not_found_witness :
    gatherTasks regTwo []
        [⟨"t1", "ghost", .null, true⟩, ⟨"t2", "a2", .null, false⟩]
      = .ok [("t1", agentNotFoundDict "ghost"),
             ("t2", [("status", .str "completed")])] :=
  (c3_agent_not_found regTwo).2.2 [] ⟨"t1", "ghost", .null, true⟩
    [⟨"t2", "a2", .null, false⟩] [("t2", [("status", .str "completed")])]
    rfl rfl

/-! ### C10 — only completed runs reach the ledger -/

theorem getStatistics_failed_lookup (hist : List LedgerEntry) (a w : Nat)
    (hne : hist ≠ []) :
    dictFind? (getStatistics hist a w) "failed_executions"
      = some (.n (hist.length - hist.countP (fun e => e.status == "completed"))) := by
  have hempty : hist.isEmpty = false := by
    cases hist with
    | nil => exact absurd rfl hne
    | cons _ _ => rfl
  unfold getStatistics
  rw [hempty]
  simp only [Bool.false_eq_true, if_false]
  rfl

theorem getStatistics_rate_lookup (hist : List LedgerEntry) (a w : Nat)
    (hne : hist ≠ []) :
    dictFind? (getStatistics hist a w) "success_rate"
      = some (.q ((hist.countP (fun e => e.status == "completed") : ℚ)
          / (hist.length : ℚ))) := by
  have hempty : hist.isEmpty = false := by
    cases hist with
    | nil => exact absurd rfl hne
    | cons _ _ => rfl
  have hpos : 0 < hist.length := List.length_pos.mpr hne
  unfold getStatistics
  rw [hempty]
  simp only [Bool.false_eq_true, if_false, hpos, if_true]
  rfl

/-- Every run leaves the history unchanged or appends one `"completed"`
entry. -/
theorem executeWorkflow_history_cases (agents : String → Option Agent)
    (st : OrchState) (name : String) (input : Value) (t1 t2 : String)
    (q1 q2 : ℚ) :
    ((executeWorkflow agents st name input t1 t2 q1 q2).2).history = st.history
    ∨ ((executeWorkflow agents st name input t1 t2 q1 q2).2).history
        = st.history ++ [⟨name, t1, q1, "completed"⟩] := by
  cases hwf : dictFind? st.workflows name with
  | none =>
      left
      rw [executeWorkflow]
      simp only [hwf]
  | some wf =>
      cases hrun : runTasks agents q2 t2 wf.tasks (initialContext input name t1) [] with
      | error e =>
          left
          rw [executeWorkflow]
          simp only [hwf, hrun]
      | ok rc =>
          obtain ⟨results, ctx'⟩ := rc
          right
          rw [executeWorkflow]
          simp only [hwf, hrun]

/-- Every entry of a reachable history reports status `"completed"`. -/
theorem reachable_all_completed :
    ∀ st : OrchState, Reachable st → ∀ e ∈ st.history, e.status = "completed" := by
  intro st h
  induction h with
  | init => intro e he; simp at he
  | regWorkflow name wf hr ih => exact ih
  | exec agents name input t1 t2 q1 q2 hr ih =>
      intro e he
      rename_i st'
      rcases executeWorkflow_history_cases agents st' name input t1 t2 q1 q2 with
        hcase | hcase
      · rw [hcase] at he
        exact ih e he
      · rw [hcase] at he
        rcases List.mem_append.mp he with h1 | h2
        · exact ih e h1
        · have heq : e = ⟨name, t1, q1, "completed"⟩ := by simpa using h2
          rw [heq]

/-- C10: a run that ends on the exception path (status `"failed"`) appends
nothing to the history; hence every entry of a reachable history has status
`"completed"`, and on any reachable non-empty history the statistics report
0 failed executions and success rate 1. -/
theorem c10_failed_runs_unrecorded :
    (∀ (agents : String → Option Agent) (st : OrchState) (name : String)
        (input : Value) (t1 t2 : String) (q1 q2 : ℚ),
      ((executeWorkflow agents st name input t1 t2 q1 q2).1).statusStr = "failed" →
      ((executeWorkflow agents st name input t1 t2 q1 q2).2).history = st.history)
    ∧ (∀ st : OrchState, Reachable st → ∀ e ∈ st.history, e.status = "completed")
    ∧ (∀ (st : OrchState) (a w : Nat), Reachable st → st.history ≠ [] →
      dictFind? (getStatistics st.history a w) "failed_executions" = some (.n 0)
      ∧ dictFind? (getStatistics st.history a w) "success_rate" = some (.q 1)) := by
  refine ⟨?_, reachable_all_completed, ?_⟩
  · intro agents st name input t1 t2 q1 q2 hfailed
    cases hwf : dictFind? st.workflows name with
    | none =>
        rw [executeWorkflow]
        simp only [hwf]
    | some wf =>
        cases hrun : runTasks agents q2 t2 wf.tasks (initialContext input name t1) [] with
        | error e =>
            rw [executeWorkflow]
            simp only [hwf, hrun]
        | ok rc =>
            obtain ⟨results, ctx'⟩ := rc
            exfalso
            rw [executeWorkflow] at hfailed
            simp only [hwf, hrun] at hfailed
            simp [WorkflowResult.statusStr] at hfailed
  · intro st a w hreach hne
    have hall := reachable_all_completed st hreach
    have hcount : st.history.countP (fun e => e.status == "completed")
        = st.history.length := by
      rw [List.countP_eq_length]
      intro e he
      simp [hall e he]
    constructor
    · rw [getStatistics_failed_lookup st.history a w hne, hcount]
      simp
    · rw [getStatistics_rate_lookup st.history a w hne, hcount]
      have hlen : (st.history.length : ℚ) ≠ 0 := by
        have hp := List.length_pos.mpr hne
        exact Nat.cast_ne_zero.mpr (Nat.pos_iff_ne_zero.mp hp)
      rw [div_self hlen]

/-- C10 witness: a reachable state after registering and running an empty
workflow has one ledger entry and success rate 1. -/
theorem c10_failed_runs_unrecorded_witness :
    dictFind?
        (getStatistics
          ((executeWorkflow regNone ⟨dictInsert [] "w" ⟨[], none⟩, []⟩
            "w" .null "t" "t" 0 0).2).history 0 0)
        "success_rate"
      = some (.q 1) :=
  ((c10_failed_runs_unrecorded.2.2
      (executeWorkflow regNone ⟨dictInsert [] "w" ⟨[], none⟩, []⟩
        "w" .null "t" "t" 0 0).2 0 0
      (Reachable.exec regNone "w" .null "t" "t" 0 0
        (Reachable.regWorkflow "w" ⟨[], none⟩ Reachable.init))
      (by
        rw [show ((executeWorkflow regNone ⟨dictInsert [] "w" ⟨[], none⟩, []⟩
            "w" .null "t" "t" 0 0).2).history
          = [⟨"w", "t", 0, "completed"⟩] from rfl]
        simp))).2

/-! ### C8 — parallel batch results -/

theorem dictFind?_append {α : Type} (a b : List (String × α)) (k : String) :
    dictFind? (a ++ b) k
      = match dictFind? a k with
        | some v => some v
        | none => dictFind? b k := by
  induction a with
  | nil => simp [dictFind?]
  | cons kv rest ih =>
      obtain ⟨k0, v0⟩ := kv
      cases hk : (k0 == k) with
      | true => simp [dictFind?, List.find?, hk]
      | false =>
          simp only [dictFind?, List.find?, List.cons_append, hk] at ih ⊢
          exact ih

theorem dictInsert_append_of_absent {α : Type} (l : List (String × α))
    (k : String) (v : α) (h : dictFind? l k = none) :
    dictInsert l k v = l ++ [(k, v)] := by
  induction l with
  | nil => rfl
  | cons kv rest ih =>
      obtain ⟨k0, v0⟩ := kv
      cases hk : (k0 == k) with
      | true => simp [dictFind?, List.find?, hk] at h
      | false =>
          have hrest : dictFind? rest k = none := by
            simpa [dictFind?, List.find?, hk] using h
          simp only [dictInsert, hk, Bool.false_eq_true, if_false, List.cons_append]
          rw [ih hrest]

theorem foldl_dictInsert_fresh {α : Type} :
    ∀ (pairs acc : List (String × α)),
    (∀ p ∈ pairs, dictFind? acc p.1 = none) →
    (pairs.map Prod.fst).Nodup →
    pairs.foldl (fun d kv => dictInsert d kv.1 kv.2) acc = acc ++ pairs := by
  intro pairs
  induction pairs with
  | nil => intro acc _ _; simp
  | cons kv rest ih =>
      intro acc hfresh hnodup
      obtain ⟨k, v⟩ := kv
      simp only [List.foldl_cons]
      rw [dictInsert_append_of_absent acc k v (hfresh (k, v) (by simp))]
      have hknotin : k ∉ rest.map Prod.fst := by
        simp only [List.map_cons, List.nodup_cons] at hnodup
        exact hnodup.1
      rw [ih (acc ++ [(k, v)]) ?_ ?_]
      · simp
      · intro p hp
        rw [dictFind?_append]
        rw [hfresh p (by simp [hp])]
        have hne : (k == p.1) = false := by
          simp only [beq_eq_false_iff_ne, ne_eq]
          intro hkp
          exact hknotin (hkp ▸ List.mem_map_of_mem Prod.fst hp)
        simp [dictFind?, List.find?, hne]
      · simp only [List.map_cons, List.nodup_cons] at hnodup
        exact hnodup.2

theorem dictFind?_of_mem_nodup {α : Type} :
    ∀ {pairs : List (String × α)} {k : String} {v : α},
    (k, v) ∈ pairs → (pairs.map Prod.fst).Nodup →
    dictFind? pairs k = some v := by
  intro pairs
  induction pairs with
  | nil => intro k v hmem _; simp at hmem
  | cons kv rest ih =>
      intro k v hmem hnodup
      obtain ⟨k0, v0⟩ := kv
      simp only [List.map_cons, List.nodup_cons] at hnodup
      rcases List.mem_cons.mp hmem with heq | hmem'
      · obtain ⟨h1, h2⟩ := Prod.mk.injEq .. ▸ heq
        subst h1
        subst h2
        simp [dictFind?, List.find?]
      · have hne : (k0 == k) = false := by
          simp only [beq_eq_false_iff_ne, ne_eq]
          intro hk
          exact hnodup.1 (hk ▸ List.mem_map_of_mem Prod.fst hmem')
        simp only [dictFind?, List.find?, hne]
        exact ih hmem' hnodup.2

/-- The gather over a batch whose agent calls all return: the pairs come
back in input order, one per task, each carrying its own task's result. -/
theorem gatherTasks_total (agents : String → Option Agent)
    (ctx : List (String × Value)) :
    ∀ tasks : List Task,
    (∀ t ∈ tasks, ∀ ag, agents t.agent = some ag →
      ∃ r, ag.execute (resolveVariables t.input ctx) = .ok r) →
    ∃ pairs : List (String × List (String × Value)),
      gatherTasks agents ctx tasks = .ok pairs
      ∧ pairs.map Prod.fst = tasks.map Task.task_id
      ∧ (∀ t ∈ tasks, agents t.agent = none →
          (t.task_id, agentNotFoundDict t.agent) ∈ pairs)
      ∧ (∀ t ∈ tasks, ∀ ag r, agents t.agent = some ag →
          ag.execute (resolveVariables t.input ctx) = .ok r →
          (t.task_id, r) ∈ pairs) := by
  intro tasks
  induction tasks with
  | nil =>
      intro _
      exact ⟨[], rfl, rfl, by simp, by simp⟩
  | cons task rest ih =>
      intro hok
      obtain ⟨pairs, hg, hkeys, hnone, hsome⟩ :=
        ih (fun t ht ag hag => hok t (by simp [ht]) ag hag)
      cases hag : agents task.agent with
      | none =>
          refine ⟨(task.task_id, agentNotFoundDict task.agent) :: pairs, ?_, ?_, ?_, ?_⟩
          · rw [gatherTasks]
            have hone : executeOneTask agents ctx task
                = .ok (task.task_id, agentNotFoundDict task.agent) := by
              rw [executeOneTask]
              simp only [hag]
            simp only [hone, hg]
          · simp [hkeys]
          · intro t ht _
            rcases List.mem_cons.mp ht with heq | hmem
            · rw [heq]
              simp
            · exact List.mem_cons_of_mem _ (hnone t hmem (by assumption))
          · intro t ht ag r hag' hex
            rcases List.mem_cons.mp ht with heq | hmem
            · rw [heq] at hag'
              rw [hag] at hag'
              exact Option.noConfusion hag'
            · exact List.mem_cons_of_mem _ (hsome t hmem ag r hag' hex)
      | some ag =>
          obtain ⟨r, hr⟩ := hok task (by simp) ag hag
          refine ⟨(task.task_id, r) :: pairs, ?_, ?_, ?_, ?_⟩
          · rw [gatherTasks]
            have hone : executeOneTask agents ctx task = .ok (task.task_id, r) := by
              rw [executeOneTask]
              simp only [hag, hr]
            simp only [hone, hg]
          · simp [hkeys]
          · intro t ht hnone'
            rcases List.mem_cons.mp ht with heq | hmem
            · rw [heq] at hnone'
              rw [hag] at hnone'
              exact Option.noConfusion hnone'
            · exact List.mem_cons_of_mem _ (hnone t hmem hnone')
          · intro t ht ag' r' hag' hex
            rcases List.mem_cons.mp ht with heq | hmem
            · subst heq
              rw [hag] at hag'
              obtain rfl : ag = ag' := by
                exact (Option.some.injEq .. ▸ hag')
              rw [hr] at hex
              obtain rfl : r = r' := by
                exact (Except.ok.injEq .. ▸ hex)
              exact List.mem_cons_self _ _
            · exact List.mem_cons_of_mem _ (hsome t hmem ag' r' hag' hex)

/-- C8: for a parallel batch with pairwise-distinct task ids in which every
agent call returns a result (rather than raising), the batch yields a
mapping with exactly one entry per task keyed by `task_id`; a member whose
agent is unregistered gets the synthesized failure and does not prevent its
siblings from completing. -/
theorem c8_parallel_batch (agents : String → Option Agent)
    (ctx : List (String × Value)) (tasks : List Task)
    (hok : ∀ t ∈ tasks, ∀ ag, agents t.agent = some ag →
      ∃ r, ag.execute (resolveVariables t.input ctx) = .ok r)
    (hnodup : (tasks.map Task.task_id).Nodup) :
    ∃ d : List (String × List (String × Value)),
      executeParallelTasks agents tasks ctx = .ok d
      ∧ d.map Prod.fst = tasks.map Task.task_id
      ∧ (∀ t ∈ tasks, agents t.agent = none →
          dictFind? d t.task_id = some (agentNotFoundDict t.agent))
      ∧ (∀ t ∈ tasks, ∀ ag r, agents t.agent = some ag →
          ag.execute (resolveVariables t.input ctx) = .ok r →
          dictFind? d t.task_id = some r) := by
  obtain ⟨pairs, hg, hkeys, hnone, hsome⟩ := gatherTasks_total agents ctx tasks hok
  have hpnodup : (pairs.map Prod.fst).Nodup := by
    rw [hkeys]
    exact hnodup
  have hfold : pairs.foldl (fun d kv => dictInsert d kv.1 kv.2) [] = pairs := by
    have h := foldl_dictInsert_fresh pairs [] (fun p _ => rfl) hpnodup
    simpa using h
  refine ⟨pairs, ?_, hkeys, ?_, ?_⟩
  · rw [executeParallelTasks]
    simp only [hg, hfold]
  · intro t ht hag
    exact dictFind?_of_mem_nodup (hnone t ht hag) hpnodup
  · intro t ht ag r hag hex
    exact dictFind?_of_mem_nodup (hsome t ht ag r hag hex) hpnodup

/-- C8 witness: a two-member batch, one member's agent unregistered. -/
theorem c8_parallel_batch_witness :
    ∃ d : List (String × List (String × Value)),
      executeParallelTasks regTwo
          [⟨"t1", "ghost", .null, false⟩, ⟨"t2", "a2", .null, false⟩] []
        = .ok d
      ∧ d.map Prod.fst = ["t1", "t2"]
      ∧ (∀ t ∈ [(⟨"t1", "ghost", .null, false⟩ : Task),
            ⟨"t2", "a2", .null, false⟩], regTwo t.agent = none →
          dictFind? d t.task_id = some (agentNotFoundDict t.agent))
      ∧ (∀ t ∈ [(⟨"t1", "ghost", .null, false⟩ : Task),
            ⟨"t2", "a2", .null, false⟩], ∀ ag r, regTwo t.agent = some ag →
          ag.execute (resolveVariables t.input []) = .ok r →
          dictFind? d t.task_id = some r) :=
  c8_parallel_batch regTwo []
    [⟨"t1", "ghost", .null, false⟩, ⟨"t2", "a2", .null, false⟩]
    (by
      intro t ht ag hag
      rcases List.mem_cons.mp ht with heq | hmem
      · rw [heq] at hag
        exact Option.noConfusion hag
      · have ht2 : t = ⟨"t2", "a2", .null, false⟩ := by simpa using hmem
        rw [ht2] at hag
        have hd : ag = agDone := by
          exact (Option.some.injEq .. ▸ hag).symm
        rw [ht2, hd]
        exact ⟨[("status", .str "completed")], rfl⟩)
    (by simp)

end Orchestrator
